import Mathlib

/-!
Shallow embedding of the go-env repository (package env, file env.go).

The package parses KEY=VALUE configuration files. Lines are modelled as
lists of characters; the process environment store is modelled through the
always-overwrite key/value interface the code requires of it (os.Setenv),
as a function from keys to optional values. Opening a file and scanning
its lines are external collaborators: a Source records whether the open
succeeds, the sequence of lines the scanner delivers, and whether the
scanner reports an error after delivering them (scanner.Err).
-/

namespace GoEnv

/-- Whitespace predicate used by strings.TrimSpace, restricted to its
Latin-1 fragment: tab, line feed, vertical tab, form feed, carriage
return, space, next line (U+0085) and no-break space (U+00A0). -/
def isSpace (c : Char) : Bool :=
  c.toNat = 9 || c.toNat = 10 || c.toNat = 11 || c.toNat = 12 ||
  c.toNat = 13 || c.toNat = 32 || c.toNat = 133 || c.toNat = 160

/-- strings.TrimSpace: drop leading and trailing whitespace. -/
def trimSpace (s : List Char) : List Char :=
  ((s.dropWhile isSpace).reverse.dropWhile isSpace).reverse

/-- The two quote characters of the cutset passed to strings.Trim in
env.go: the double quote and the single quote. -/
def isQuote (c : Char) : Bool :=
  c = '"' || c = '\''

/-- strings.Trim with the quote cutset: drop ALL leading and ALL trailing
quote characters, in any combination. -/
def trimQuotes (s : List Char) : List Char :=
  ((s.dropWhile isQuote).reverse.dropWhile isQuote).reverse

/-- Value normalization shared by LoadEnv and GetEnv:
strings.TrimSpace then strings.Trim with the quote cutset. -/
def normValue (v : List Char) : List Char :=
  trimQuotes (trimSpace v)

/-- strings.SplitN(line, eq, 2) together with the len(parts) == 2 test:
some (before, after) split at the FIRST equals sign when one occurs,
none otherwise. -/
def splitEq : List Char → Option (List Char × List Char)
  | [] => none
  | c :: cs =>
    if c = '=' then some ([], cs)
    else (splitEq cs).map (fun p => (c :: p.1, p.2))

/-- True when the first character is the hash character
(strings.HasPrefix with a one-character pattern). -/
def startsHash : List Char → Bool
  | [] => false
  | c :: _ => c = '#'

/-- The line classifier of both loops in env.go: a line is ignored
exactly when it is empty or begins with the hash character. -/
def lineIgnored (l : List Char) : Bool :=
  l.isEmpty || startsHash l

/-- The normalized entry a line contributes, if any: none for ignored
lines and for lines with no equals sign, otherwise the trimmed key
paired with the normalized value. -/
def entryOf (l : List Char) : Option (List Char × List Char) :=
  if lineIgnored l then none
  else
    match splitEq l with
    | none => none
    | some (k, v) => some (trimSpace k, normValue v)

/-- The process environment store, through the interface the code uses:
a map from keys to optional values. -/
abbrev Env := List Char → Option (List Char)

/-- os.Setenv: overwrite the value stored for a key. -/
def setEnv (e : Env) (k v : List Char) : Env :=
  fun q => if q = k then some v else e q

/-- One iteration of the LoadEnv scan loop on a delivered line. -/
def processLine (e : Env) (l : List Char) : Env :=
  if lineIgnored l then e
  else
    match splitEq l with
    | none => e
    | some (k, v) => setEnv e (trimSpace k) (normValue v)

/-- The LoadEnv scan loop over the delivered lines, in order. -/
def loadLoop : List (List Char) → Env → Env
  | [], e => e
  | l :: ls, e => loadLoop ls (processLine e l)

/-- The GetEnv scan loop: the environment is threaded through every
iteration untouched, and the loop stops at the first candidate line
whose trimmed key equals the target key, returning its normalized
value. -/
def getLoop (key : List Char) : List (List Char) → Env → Env × Option (List Char)
  | [], e => (e, none)
  | l :: ls, e =>
    if lineIgnored l then getLoop key ls e
    else
      match splitEq l with
      | none => getLoop key ls e
      | some (k, v) =>
        if trimSpace k = key then (e, some (normValue v))
        else getLoop key ls e

/-- The one error kind of the package: an I/O failure, either at open
time or during line iteration. -/
inductive IOErr where
  | openFail : IOErr
  | readFail : IOErr
deriving DecidableEq

/-- A configuration source, through the interface the code requires of
the file-open and line-scan collaborators: whether the open succeeds,
the lines the scanner delivers, and whether the scanner reports an
error once the delivered lines are exhausted. -/
structure Source where
  openOk : Bool
  lines : List (List Char)
  readOk : Bool

/-- LoadEnv: open the source, run the scan loop writing every normalized
entry into the environment, then report the scanner status. Returns the
resulting environment together with the optional error. -/
def LoadEnv (src : Source) (e : Env) : Env × Option IOErr :=
  if src.openOk then
    (loadLoop src.lines e,
     if src.readOk then none else some IOErr.readFail)
  else (e, some IOErr.openFail)

/-- GetEnv: open the source and run the lookup loop. A match returns its
value with no error; exhausting the delivered lines returns the empty
value together with the scanner status. The environment is returned to
express that the operation threads it through unchanged. -/
def GetEnv (key : List Char) (src : Source) (e : Env) :
    Env × (List Char × Option IOErr) :=
  if src.openOk then
    match getLoop key src.lines e with
    | (e1, some v) => (e1, (v, none))
    | (e1, none) =>
      (e1, ([], if src.readOk then none else some IOErr.readFail))
  else (e, ([], some IOErr.openFail))

/-- The value of the LAST entry of the delivered lines whose key is the
given key, if any: search the normalized entries in reverse order. -/
def lastVal (k : List Char) (lines : List (List Char)) : Option (List Char) :=
  ((lines.filterMap entryOf).reverse.find? (fun p => decide (p.1 = k))).map
    (fun p => p.2)

/-- The value of the FIRST entry of the delivered lines whose key is the
given key, if any: search the normalized entries in order. -/
def firstVal (k : List Char) (lines : List (List Char)) : Option (List Char) :=
  ((lines.filterMap entryOf).find? (fun p => decide (p.1 = k))).map
    (fun p => p.2)

/-- Reference definition following the words of the implicit quote-strip
claim: remove all leading quote characters, then all trailing ones, by
explicit one-character recursion. -/
def stripLeadQuotes : List Char → List Char
  | [] => []
  | c :: cs => if isQuote c then stripLeadQuotes cs else c :: cs

/-- Reference definition following the words of the implicit quote-strip
claim, both ends. -/
def stripAllQuotes (s : List Char) : List Char :=
  (stripLeadQuotes (stripLeadQuotes s).reverse).reverse

lemma head?_dropWhile_false {α : Type} (p : α → Bool) (l : List α) (c : α)
    (h : (l.dropWhile p).head? = some c) : p c = false := by
  induction l with
  | nil => simp at h
  | cons a t ih =>
    rw [List.dropWhile_cons] at h
    by_cases hp : p a
    · rw [if_pos hp] at h
      exact ih h
    · rw [if_neg hp] at h
      simp at h
      rw [← h]
      simp [hp]

lemma trimQuotes_split (s : List Char) :
    s.dropWhile isQuote =
      trimQuotes s ++ ((s.dropWhile isQuote).reverse.takeWhile isQuote).reverse := by
  have h2 := List.takeWhile_append_dropWhile isQuote (s.dropWhile isQuote).reverse
  have h3 := congrArg List.reverse h2
  rw [List.reverse_append, List.reverse_reverse] at h3
  exact h3.symm

lemma trimQuotes_decomp (s : List Char) :
    ∃ p q, (∀ c ∈ p, isQuote c = true) ∧ (∀ c ∈ q, isQuote c = true) ∧
      s = p ++ trimQuotes s ++ q := by
  refine ⟨s.takeWhile isQuote,
    ((s.dropWhile isQuote).reverse.takeWhile isQuote).reverse, ?_, ?_, ?_⟩
  · intro c hc
    exact List.mem_takeWhile_imp hc
  · intro c hc
    rw [List.mem_reverse] at hc
    exact List.mem_takeWhile_imp hc
  · conv_lhs => rw [← List.takeWhile_append_dropWhile isQuote s]
    rw [List.append_assoc]
    exact congrArg _ (trimQuotes_split s)

lemma trimQuotes_head (s : List Char) (c : Char)
    (h : (trimQuotes s).head? = some c) : isQuote c = false := by
  have ha : (s.dropWhile isQuote).head? = some c := by
    rw [trimQuotes_split s]
    cases hh : trimQuotes s with
    | nil => rw [hh] at h; simp at h
    | cons x xs =>
      rw [hh] at h
      simp at h
      simpa using h
  exact head?_dropWhile_false isQuote s c ha

lemma trimQuotes_last (s : List Char) (c : Char)
    (h : (trimQuotes s).getLast? = some c) : isQuote c = false := by
  have hd : ((s.dropWhile isQuote).reverse.dropWhile isQuote).head? = some c := by
    have hr := List.head?_reverse ((s.dropWhile isQuote).reverse.dropWhile isQuote).reverse
    rw [List.reverse_reverse] at hr
    rw [hr]
    exact h
  exact head?_dropWhile_false isQuote (s.dropWhile isQuote).reverse c hd

lemma stripLeadQuotes_eq (s : List Char) :
    stripLeadQuotes s = s.dropWhile isQuote := by
  induction s with
  | nil => rfl
  | cons c cs ih => simp [stripLeadQuotes, List.dropWhile_cons, ih]

lemma stripAllQuotes_eq (s : List Char) : stripAllQuotes s = trimQuotes s := by
  rw [stripAllQuotes, stripLeadQuotes_eq, stripLeadQuotes_eq, trimQuotes]

lemma entryOf_ignored (l : List Char) (h : lineIgnored l = true) :
    entryOf l = none := by
  simp [entryOf, h]

lemma entryOf_nosplit (l : List Char) (h1 : lineIgnored l = false)
    (h2 : splitEq l = none) : entryOf l = none := by
  simp [entryOf, h1, h2]

lemma entryOf_split (l k v : List Char) (h1 : lineIgnored l = false)
    (h2 : splitEq l = some (k, v)) :
    entryOf l = some (trimSpace k, normValue v) := by
  simp [entryOf, h1, h2]

lemma processLine_key (e : Env) (l : List Char) (k : List Char) :
    processLine e l k =
      match entryOf l with
      | some kv => if kv.1 = k then some kv.2 else e k
      | none => e k := by
  by_cases h : lineIgnored l
  · simp [processLine, entryOf, h]
  · cases hs : splitEq l with
    | none => simp [processLine, entryOf, h, hs]
    | some kv =>
      obtain ⟨k0, v⟩ := kv
      simp only [processLine, entryOf, h, hs, Bool.false_eq_true, if_false,
        setEnv]
      by_cases hk : trimSpace k0 = k
      · subst hk
        simp
      · rw [if_neg (fun hh => hk hh.symm)]
        simp [hk]

lemma loadLoop_key (lines : List (List Char)) :
    ∀ (e : Env) (k : List Char),
      loadLoop lines e k = (lastVal k lines).or (e k) := by
  induction lines with
  | nil =>
    intro e k
    simp [loadLoop, lastVal]
  | cons l ls ih =>
    intro e k
    show loadLoop ls (processLine e l) k = _
    rw [ih, processLine_key]
    simp only [lastVal, List.filterMap_cons]
    cases he : entryOf l with
    | none => simp
    | some p =>
      simp only [List.reverse_cons, List.find?_append]
      cases hf : (ls.filterMap entryOf).reverse.find? (fun q => decide (q.1 = k)) with
      | some q => simp [Option.or]
      | none =>
        by_cases hp : p.1 = k
        · simp [List.find?, hp, Option.or]
        · simp [List.find?, hp, Option.or]

lemma getLoop_fst (key : List Char) (lines : List (List Char)) :
    ∀ e : Env, (getLoop key lines e).1 = e := by
  induction lines with
  | nil =>
    intro e
    rfl
  | cons l ls ih =>
    intro e
    by_cases h : lineIgnored l
    · simp [getLoop, h, ih]
    · cases hs : splitEq l with
      | none => simp [getLoop, h, hs, ih]
      | some kv =>
        obtain ⟨k0, v⟩ := kv
        by_cases hk : trimSpace k0 = key
        · simp [getLoop, h, hs, hk]
        · simp [getLoop, h, hs, hk, ih]

lemma getLoop_snd (key : List Char) (lines : List (List Char)) :
    ∀ e : Env, (getLoop key lines e).2 = firstVal key lines := by
  induction lines with
  | nil =>
    intro e
    simp [getLoop, firstVal]
  | cons l ls ih =>
    intro e
    by_cases h : lineIgnored l
    · simp [getLoop, h, ih, firstVal, List.filterMap_cons, entryOf_ignored l h]
    · cases hs : splitEq l with
      | none =>
        simp [getLoop, h, hs, ih, firstVal, List.filterMap_cons,
          entryOf_nosplit l (by simpa using h) hs]
      | some kv =>
        obtain ⟨k0, v⟩ := kv
        have he := entryOf_split l k0 v (by simpa using h) hs
        by_cases hk : trimSpace k0 = key
        · simp [getLoop, h, hs, hk, firstVal, List.filterMap_cons, he,
            List.find?]
        · simp [getLoop, h, hs, hk, ih, firstVal, List.filterMap_cons, he,
            List.find?]

lemma GetEnv_char (key : List Char) (src : Source) (e : Env) :
    GetEnv key src e =
      if src.openOk then
        match firstVal key src.lines with
        | some v => (e, (v, none))
        | none =>
          (e, ([], if src.readOk then none else some IOErr.readFail))
      else (e, ([], some IOErr.openFail)) := by
  unfold GetEnv
  by_cases h : src.openOk
  · simp only [h, if_true]
    rcases hg : getLoop key src.lines e with ⟨e1, r⟩
    have h1 := getLoop_fst key src.lines e
    have h2 := getLoop_snd key src.lines e
    rw [hg] at h1 h2
    simp only at h1 h2
    rw [← h2]
    cases r with
    | none => simp [h1]
    | some v => simp [h1]
  · simp [h]

/-- C2: LoadEnv performs one environment write per normalized entry, in
file order, each write overwriting any earlier value for the same key:
after a run on an opened source, the environment holds, for every key,
the LAST occurrence's normalized value when the key occurs on a
candidate line, and its prior value otherwise. -/
theorem C2_load_last_wins (src : Source) (e : Env) (k : List Char)
    (h : src.openOk = true) :
    (LoadEnv src e).1 k = (lastVal k src.lines).or (e k) := by
  simp [LoadEnv, h, loadLoop_key]

/-- C2 witness: loading two lines binding the same key leaves the last
value in the environment. -/
theorem C2_load_last_wins_witness :
    (LoadEnv (Source.mk true [['A', '=', '1'], ['A', '=', '2']] true)
      (fun _ => none)).1 ['A'] = some ['2'] := by
  rw [C2_load_last_wins (Source.mk true [['A', '=', '1'], ['A', '=', '2']] true)
    (fun _ => none) ['A'] rfl]
  decide

/-- C5: the line classifier ignores a line exactly when it is empty or
its first character is the hash character; a line of one space and a
line of a space followed by a hash are candidates, not ignored. -/
theorem C5_line_classifier :
    (∀ l : List Char, lineIgnored l = true ↔ (l = [] ∨ l.head? = some '#')) ∧
    lineIgnored [' '] = false ∧
    lineIgnored [' ', '#'] = false ∧
    lineIgnored [] = true ∧
    lineIgnored ['#', ' ', 'x'] = true := by
  refine ⟨?_, by decide, by decide, by decide, by decide⟩
  intro l
  cases l with
  | nil => simp [lineIgnored]
  | cons c cs => simp [lineIgnored, startsHash]

/-- C5 witness: a line of a single space is a candidate. -/
theorem C5_line_classifier_witness : lineIgnored [' '] = false :=
  C5_line_classifier.2.1

/-- C7: GetEnv threads the environment through unchanged on every
outcome: open failure, a match, and an exhausted source. -/
theorem C7_getenv_frame (key : List Char) (src : Source) (e : Env) :
    (GetEnv key src e).1 = e := by
  rw [GetEnv_char]
  by_cases h : src.openOk
  · cases hf : firstVal key src.lines <;> simp [h, hf]
  · simp [h]

/-- C7 witness: a concrete lookup leaves a concrete environment
unchanged. -/
theorem C7_getenv_frame_witness :
    (GetEnv ['A'] (Source.mk true [['A', '=', '1']] true)
      (fun _ => none)).1 = (fun _ => none) :=
  C7_getenv_frame ['A'] (Source.mk true [['A', '=', '1']] true) (fun _ => none)

/-- C9: running LoadEnv twice in succession on the same source leaves
the environment exactly as one run leaves it. -/
theorem C9_load_idempotent (src : Source) (e : Env) :
    (LoadEnv src ((LoadEnv src e).1)).1 = (LoadEnv src e).1 := by
  simp only [LoadEnv]
  by_cases h : src.openOk
  · simp only [h, if_true]
    funext k
    rw [loadLoop_key, loadLoop_key]
    cases hl : lastVal k src.lines <;> simp [Option.or]
  · simp [h]

/-- C10: value normalization removes all leading and all trailing quote
characters, in any combination and depth, leaving the interior
unchanged; it agrees with the one-character-at-a-time reference
stripping, and both operations expose it. -/
theorem C10_trim_all_quotes :
    (∀ v : List Char, normValue v = stripAllQuotes (trimSpace v)) ∧
    normValue ['\'', 'a', '"'] = ['a'] ∧
    normValue ['"', '"', 'a', '"', '"'] = ['a'] ∧
    (LoadEnv (Source.mk true [['K', '=', '\'', 'a', '"']] true)
      (fun _ => none)).1 ['K'] = some ['a'] ∧
    (GetEnv ['K'] (Source.mk true [['K', '=', '\'', 'a', '"']] true)
      (fun _ => none)).2.1 = ['a'] := by
  refine ⟨?_, by decide, by decide, by decide, by decide⟩
  intro v
  rw [normValue, stripAllQuotes_eq]

lemma splitEq_none_iff (l : List Char) : splitEq l = none ↔ '=' ∉ l := by
  induction l with
  | nil => simp [splitEq]
  | cons c cs ih =>
    by_cases hc : c = '='
    · subst hc
      simp [splitEq]
    · rw [splitEq, if_neg hc]
      simp only [Option.map_eq_none', ih]
      constructor
      · intro hn hmem
        rcases List.mem_cons.mp hmem with hcc | hcc
        · exact hc hcc.symm
        · exact hn hcc
      · intro hn hmem
        exact hn (List.mem_cons.mpr (Or.inr hmem))

lemma splitEq_some (l : List Char) :
    ∀ k v, splitEq l = some (k, v) → l = k ++ '=' :: v ∧ '=' ∉ k := by
  induction l with
  | nil =>
    intro k v h
    simp [splitEq] at h
  | cons c cs ih =>
    intro k v h
    by_cases hc : c = '='
    · subst hc
      rw [splitEq, if_pos rfl] at h
      simp at h
      obtain ⟨hk, hv⟩ := h
      subst hk
      subst hv
      simp
    · rw [splitEq, if_neg hc] at h
      cases hs : splitEq cs with
      | none =>
        rw [hs] at h
        simp at h
      | some p =>
        obtain ⟨k1, v1⟩ := p
        rw [hs] at h
        simp at h
        obtain ⟨hk, hv⟩ := h
        obtain ⟨h1, h2⟩ := ih k1 v1 hs
        subst hv
        rw [← hk, h1]
        constructor
        · simp
        · intro hmem
          rcases List.mem_cons.mp hmem with hcc | hcc
          · exact hc hcc.symm
          · exact h2 hcc

/-- C6: a candidate line yields an entry exactly when it contains an
equals sign; the raw key is everything strictly before the first equals
sign (so it contains none itself) and the raw value is everything
strictly after it; a line with no equals sign is silently skipped by
both scan loops. -/
theorem C6_split_first_equals (l : List Char) :
    (splitEq l = none ↔ '=' ∉ l) ∧
    (∀ k v, splitEq l = some (k, v) → l = k ++ '=' :: v ∧ '=' ∉ k) ∧
    (splitEq l = none →
      (∀ e : Env, processLine e l = e) ∧
      (∀ (key : List Char) (ls : List (List Char)) (e : Env),
        getLoop key (l :: ls) e = getLoop key ls e)) := by
  refine ⟨splitEq_none_iff l, splitEq_some l, ?_⟩
  intro h
  constructor
  · intro e
    by_cases hi : lineIgnored l
    · simp [processLine, hi]
    · simp [processLine, hi, h]
  · intro key ls e
    by_cases hi : lineIgnored l
    · simp [getLoop, hi]
    · simp [getLoop, hi, h]

/-- C6 witness: a line with no equals sign leaves the environment
untouched by the bulk-load loop body. -/
theorem C6_split_first_equals_witness :
    processLine (fun _ => none) ['N', 'O'] = (fun _ => none) :=
  ((C6_split_first_equals ['N', 'O']).2.2 (by decide)).1 (fun _ => none)

/-- C3: on an opened source, GetEnv returns the normalized value of the
FIRST candidate line whose trimmed key equals the target key, with no
error, and the loop stops there: lines appended after the source's
lines cannot change the result. -/
theorem C3_get_first_wins (key : List Char) (src : Source) (e : Env)
    (h : src.openOk = true) (r : List Char)
    (hf : firstVal key src.lines = some r) :
    (GetEnv key src e).2 = (r, none) ∧
    ∀ post : List (List Char),
      (getLoop key (src.lines ++ post) e).2 = some r := by
  constructor
  · rw [GetEnv_char]
    simp [h, hf]
  · intro post
    rw [getLoop_snd]
    unfold firstVal at hf ⊢
    rw [List.filterMap_append, List.find?_append]
    cases hq : (src.lines.filterMap entryOf).find? (fun p => decide (p.1 = key)) with
    | none =>
      rw [hq] at hf
      simp at hf
    | some q =>
      rw [hq] at hf
      simp at hf
      simp [Option.or, hf]

/-- C3 witness: with the same key bound twice, lookup returns the first
value with no error. -/
theorem C3_get_first_wins_witness :
    (GetEnv ['A'] (Source.mk true [['A', '=', '1'], ['A', '=', '2']] true)
      (fun _ => none)).2 = (['1'], none) :=
  (C3_get_first_wins ['A']
    (Source.mk true [['A', '=', '1'], ['A', '=', '2']] true)
    (fun _ => none) rfl ['1'] (by decide)).1

/-- C4: both operations fail exactly on I/O: LoadEnv reports an error
precisely when opening fails or the scanner reports a read failure;
GetEnv reports an error precisely when opening fails or a read failure
is reached with no earlier match; with healthy I/O an absent key makes
GetEnv return the empty value with no error, and malformed lines never
produce an error. -/
theorem C4_error_taxonomy (src : Source) (key : List Char) (e : Env) :
    ((LoadEnv src e).2 ≠ none ↔
      (src.openOk = false ∨ src.readOk = false)) ∧
    ((GetEnv key src e).2.2 ≠ none ↔
      (src.openOk = false ∨
        (src.readOk = false ∧ firstVal key src.lines = none))) ∧
    (src.openOk = true → src.readOk = true →
      firstVal key src.lines = none → (GetEnv key src e).2 = ([], none)) := by
  refine ⟨?_, ?_, ?_⟩
  · unfold LoadEnv
    by_cases h : src.openOk <;> by_cases h2 : src.readOk <;> simp [h, h2]
  · rw [GetEnv_char]
    by_cases h : src.openOk
    · cases hf : firstVal key src.lines with
      | none => by_cases h2 : src.readOk <;> simp [h, h2, hf]
      | some v => simp [h, hf]
    · simp [h]
  · intro h1 h2 hf
    rw [GetEnv_char]
    simp [h1, h2, hf]

/-- C4 witness: a well-formed source with an absent key yields the
empty value and no error. -/
theorem C4_error_taxonomy_witness :
    (GetEnv ['X'] (Source.mk true [['A', '=', '1']] true)
      (fun _ => none)).2 = ([], none) :=
  (C4_error_taxonomy (Source.mk true [['A', '=', '1']] true) ['X']
    (fun _ => none)).2.2 rfl rfl (by decide)

/-- C1 counterexample: the trimmed value consisting of a single quote, a
letter and a double quote has no matching outer quote pair, so the claim
says it is left unchanged; the code changes it. Likewise in GetEnv for a
value starting with a letter and ending in one double quote. -/
theorem C1_counterexample :
    trimSpace ['\'', 'a', '"'] = ['\'', 'a', '"'] ∧
    normValue ['\'', 'a', '"'] ≠ ['\'', 'a', '"'] ∧
    (GetEnv ['K'] (Source.mk true [['K', '=', 'x', '\'', 'a', '"']] true)
      (fun _ => none)).2.1 ≠ ['x', '\'', 'a', '"'] := by
  decide

/-- C1 (amended): after whitespace-trimming the value segment, the value
is unquoted by removing every leading and every trailing quote
character, in any mix of the two quote characters; the remaining value
neither starts nor ends with a quote character and its interior is the
untouched middle of the trimmed value; LoadEnv stores exactly the value
GetEnv returns for the same line. -/
theorem C1_unquote_both_ends :
    (∀ v : List Char, ∃ p q,
      (∀ c ∈ p, isQuote c = true) ∧ (∀ c ∈ q, isQuote c = true) ∧
      trimSpace v = p ++ normValue v ++ q) ∧
    (∀ (v : List Char) (c : Char),
      (normValue v).head? = some c → isQuote c = false) ∧
    (∀ (v : List Char) (c : Char),
      (normValue v).getLast? = some c → isQuote c = false) ∧
    (∀ (l : List Char) (e : Env) (key r : List Char),
      (getLoop key [l] e).2 = some r → loadLoop [l] e key = some r) := by
  refine ⟨?_, ?_, ?_, ?_⟩
  · intro v
    exact trimQuotes_decomp (trimSpace v)
  · intro v c h
    exact trimQuotes_head (trimSpace v) c h
  · intro v c h
    exact trimQuotes_last (trimSpace v) c h
  · intro l e key r h
    by_cases hi : lineIgnored l
    · simp [getLoop, hi] at h
    · cases hs : splitEq l with
      | none => simp [getLoop, hi, hs] at h
      | some kv =>
        obtain ⟨k0, v⟩ := kv
        by_cases hk : trimSpace k0 = key
        · simp only [getLoop, hi, hs, hk, Bool.false_eq_true, if_false,
            if_true] at h
          simp at h
          simp [loadLoop, processLine, hi, hs, setEnv, hk, h]
        · simp [getLoop, hi, hs, hk] at h

/-- C1 witness: the bulk loader stores the fully unquoted value that the
lookup loop returns for the same line. -/
theorem C1_unquote_both_ends_witness :
    loadLoop [['K', '=', '\'', 'a', '"']] (fun _ => none) ['K'] = some ['a'] :=
  C1_unquote_both_ends.2.2.2 ['K', '=', '\'', 'a', '"'] (fun _ => none)
    ['K'] ['a'] (by decide)

/-- C8 counterexample: a value that is exactly one double quote is
stripped to the empty value, not left unchanged, in GetEnv too. -/
theorem C8_counterexample :
    normValue ['"'] = [] ∧ normValue ['"'] ≠ ['"'] ∧
    (GetEnv ['K'] (Source.mk true [['K', '=', '"']] true)
      (fun _ => none)).2.1 = [] := by
  decide

/-- C8 (amended): a trimmed value consisting of exactly one quote
character is stripped to the empty value in both operations, since the
trim removes every leading and trailing quote character. -/
theorem C8_lone_quote_stripped (c : Char) (h : isQuote c = true) :
    normValue [c] = [] := by
  have h2 : c = '"' ∨ c = '\'' := by
    simpa [isQuote] using h
  rcases h2 with h2 | h2 <;> subst h2 <;> decide

/-- C8 witness: the single-quote-character value normalizes to the
empty value. -/
theorem C8_lone_quote_stripped_witness : normValue ['\''] = [] :=
  C8_lone_quote_stripped '\'' (by decide)

end GoEnv
